import Mathlib

/-!
Shallow embedding of the decision engine of the Nifty Shop trading strategy
(src/strategy/nifty_shop.py and src/utils/config_manager.py).

Prices are modelled as rationals (`ℚ`), broker data access as oracle
functions returning `Option` values (`none` = fetch failure / missing data),
and each phase of the strategy as a pure function of the oracles and the
holdings snapshot fetched at its start.
-/

namespace NiftyShop

/-- A holding record as used by the strategy: the internal format produced by
`_get_current_holdings` (and by `_place_new_trade` for mock trades).
`entry` is the average/last acquisition price, `createTimestamp` the
acquisition timestamp (an abstract instant). -/
structure Holding where
  tradingSymbol : String
  entry : ℚ
  quantity : ℤ
  createTimestamp : ℕ
  deriving DecidableEq

/-- One raw holding entry of the Zerodha holdings API response. -/
structure RawHolding where
  tradingsymbol : String
  average_price : ℚ
  quantity : ℤ
  deriving DecidableEq

/-- The decoded holdings API response: `statusSuccess` models
`data.get('status') == 'success'`, `data` models the optional `'data'` field. -/
structure HoldingsResponse where
  statusSuccess : Bool
  data : Option (List RawHolding)
  deriving DecidableEq

/-- Conversion of raw API holdings to the internal format
(`_get_current_holdings`, lines 429-441): only entries with `quantity > 0`
are kept; every converted entry gets the current time `now` as timestamp. -/
def convert_holdings (now : ℕ) (raws : List RawHolding) : List Holding :=
  raws.filterMap fun r =>
    if 0 < r.quantity then
      some ⟨r.tradingsymbol, r.average_price, r.quantity, now⟩
    else none

/-- `_get_current_holdings`: `resp = none` models the request raising an
exception (the `except` branch returns `self.mock_trades`); a response with
failed status or without a `data` field yields `[]`. -/
def get_current_holdings (resp : Option HoldingsResponse) (now : ℕ)
    (mock : List Holding) : List Holding :=
  match resp with
  | none => mock
  | some r =>
    if r.statusSuccess then
      match r.data with
      | none => []
      | some raws => convert_holdings now raws
    else []

/-- `_get_cmp`: fetches a short price history and returns the latest close;
`none` models every failure mode (no data, empty frame, exception). -/
def get_cmp (hist5 : String → Option (List ℚ)) (s : String) : Option ℚ :=
  match hist5 s with
  | none => none
  | some closes => closes.getLast?

/-! ## Ranking engine (`get_eligible_stocks_for_today`) -/

/-- Last value of `df['Close'].rolling(window=20).mean()`: the mean of the
most recent 20 closes, defined only when at least 20 closes exist
(otherwise pandas yields NaN, which the code skips). -/
def latestDMA (closes : List ℚ) : Option ℚ :=
  if 20 ≤ closes.length then
    some ((closes.drop (closes.length - 20)).sum / 20)
  else none

/-- Deviation of the latest close from the moving average, as stored in the
results tuple. A zero moving average makes the float computation produce
`-inf` for the (only storable) case `close < 0`; `none` stands for that
minus-infinity so that the sort order matches the float sort order. -/
def devOf (c dma : ℚ) : Option ℚ :=
  if dma = 0 then none else some ((c - dma) / dma * 100)

/-- One entry of the `results` list `(symbol, deviation, latest_close, latest_dma)`. -/
structure RankRow where
  symbol : String
  deviation : Option ℚ
  close : ℚ
  dma : ℚ
  deriving DecidableEq

/-- Order on stored deviations: `none` is minus infinity. -/
def devLe : Option ℚ → Option ℚ → Prop
  | none, _ => True
  | some _, none => False
  | some a, some b => a ≤ b

instance : DecidableRel devLe := fun a b =>
  match a, b with
  | none, _ => .isTrue trivial
  | some _, none => .isFalse fun h => h
  | some x, some y => inferInstanceAs (Decidable (x ≤ y))

/-- Sort key relation used for `sorted(results, key=lambda x: x[1])`. -/
def rowLe (a b : RankRow) : Prop := devLe a.deviation b.deviation

instance : DecidableRel rowLe := fun a b =>
  inferInstanceAs (Decidable (devLe a.deviation b.deviation))

instance : IsTotal RankRow rowLe where
  total a b := by
    unfold rowLe devLe
    rcases a.deviation with _ | x <;> rcases b.deviation with _ | y <;> simp
    exact le_total x y

instance : IsTrans RankRow rowLe where
  trans a b c := by
    unfold rowLe devLe
    rcases a.deviation with _ | x <;> rcases b.deviation with _ | y <;>
      rcases c.deviation with _ | z <;> simp
    exact le_trans

/-- Per-symbol step of the ranking loop (lines 278-314): skip when the
history fetch fails or the frame is empty, skip when the 20-day mean is
undefined, and record the row only when the latest close is strictly below
the moving average. -/
def processSymbol (hist : String → Option (List ℚ)) (s : String) :
    Option RankRow :=
  match hist s with
  | none => none
  | some closes =>
    if closes.isEmpty then none
    else
      match latestDMA closes, closes.getLast? with
      | some dma, some c =>
        if c < dma then some ⟨s, devOf c dma, c, dma⟩ else none
      | _, _ => none

/-- The `results` list accumulated over the symbol universe. -/
def belowDMAResults (hist : String → Option (List ℚ)) (syms : List String) :
    List RankRow :=
  syms.filterMap (processSymbol hist)

/-- `sorted_results`: ascending by deviation (Python `sorted` is stable). -/
def sortedResults (hist : String → Option (List ℚ)) (syms : List String) :
    List RankRow :=
  List.insertionSort rowLe (belowDMAResults hist syms)

/-- `sorted_results[:5]`. -/
def top5rows (hist : String → Option (List ℚ)) (syms : List String) :
    List RankRow :=
  (sortedResults hist syms).take 5

/-- `get_eligible_stocks_for_today`: the top-5 symbols below their 20DMA. -/
def get_eligible_stocks_for_today (hist : String → Option (List ℚ))
    (syms : List String) : List String :=
  (top5rows hist syms).map (·.symbol)

/-! ## Sell phase (`initiate_sell`) -/

/-- The `profitable_holdings` list (lines 623-673): for each holding fetch
the current price (skip on failure), compute
`profit_pct = (current - entry) / entry * 100` (a zero entry price raises
`ZeroDivisionError`, caught by the per-holding handler, so such a holding is
skipped), and keep the pairs with `profit_pct > 5.0`.  `sellCheck` is the
per-holding body of that loop. -/
def sellCheck (cmp : String → Option ℚ) (h : Holding) : Option (Holding × ℚ) :=
  match cmp h.tradingSymbol with
  | none => none
  | some p =>
    if h.entry = 0 then none
    else
      if 5 < (p - h.entry) / h.entry * 100 then
        some (h, (p - h.entry) / h.entry * 100)
      else none

def profitable_holdings (cmp : String → Option ℚ) (holdings : List Holding) :
    List (Holding × ℚ) :=
  holdings.filterMap (sellCheck cmp)

/-- `initiate_sell` returns the number of stocks sold.  Each profitable
holding's sell order re-fetches the same (deterministic) price, which is
available and has a nonzero entry, so every order succeeds and the count is
the number of profitable holdings. -/
def initiate_sell (cmp : String → Option ℚ) (holdings : List Holding) : ℕ :=
  (profitable_holdings cmp holdings).length

/-! ## Buy phase (`initiate_buy`) -/

/-- The inner holdings scan `stock == holding['tradingSymbol']`. -/
def isHeld (holdings : List Holding) (s : String) : Bool :=
  holdings.any fun h => h.tradingSymbol = s

/-- The new-position loop (lines 749-770): `bought` is `new_stocks_bought`.
A stock already held is skipped; an unheld stock is bought only while
`bought < limit`, and `_place_new_trade` succeeds exactly when the price
fetch succeeds.  Returns the list of symbols for which a BUY_NEW order was
placed. -/
def newBuysAux (cmp : String → Option ℚ) (limit : ℕ) (holdings : List Holding) :
    List String → ℕ → List String
  | [], _ => []
  | stock :: rest, bought =>
    if isHeld holdings stock then newBuysAux cmp limit holdings rest bought
    else if bought < limit then
      match cmp stock with
      | some _ => stock :: newBuysAux cmp limit holdings rest (bought + 1)
      | none => newBuysAux cmp limit holdings rest bought
    else newBuysAux cmp limit holdings rest bought

/-- Python `round(x, 2)` on exact values: round to the nearest integer
number of hundredths, ties to the even integer. -/
def roundHalfEven (x : ℚ) : ℤ :=
  let f := ⌊x⌋
  let r := x - f
  if r < 1 / 2 then f
  else if 1 / 2 < r then f + 1
  else if 2 ∣ f then f else f + 1

/-- Round a rational to two decimal places, ties to even. -/
def round2 (q : ℚ) : ℚ := (roundHalfEven (q * 100) : ℚ) / 100

/-- Lexicographic comparison of strings as lists of code points, exactly
Python's `str` ordering (used by pandas when sorting group keys). -/
def charListLt : List Char → List Char → Bool
  | [], [] => false
  | [], _ :: _ => true
  | _ :: _, [] => false
  | a :: as, b :: bs =>
    if a.toNat < b.toNat then true
    else if b.toNat < a.toNat then false
    else charListLt as bs

/-- `a ≤ b` on strings in code-point order. -/
def strle (a b : String) : Prop := charListLt b.data a.data = false

instance : DecidableRel strle := fun a b =>
  inferInstanceAs (Decidable (charListLt b.data a.data = false))

/-- `df.groupby(['Symbol'])["Date"].idxmax()` keeps, per group, the first
row attaining the maximal date.  `pickLater` is the corresponding fold step:
a later row replaces the current best only when strictly more recent. -/
def pickLater (acc : Option Holding) (h : Holding) : Option Holding :=
  match acc with
  | none => some h
  | some m => if m.createTimestamp < h.createTimestamp then some h else some m

/-- First row with maximal `createTimestamp` in a list of holdings. -/
def lastBuyRow (hs : List Holding) : Option Holding :=
  hs.foldl pickLater none

/-- The group keys of `df.groupby(['Symbol'])`: the distinct symbols of the
holdings, sorted ascending (pandas sorts group keys), so the deduplicated
averaging table is in alphabetical symbol order, not holdings order. -/
def uniqueSymbolsSorted (holdings : List Holding) : List String :=
  List.insertionSort strle ((holdings.map (·.tradingSymbol)).dedup)

/-- One row of the averaging table (after deduplication, pricing and the
`ChangePct` computation, lines 811-866). -/
structure AvgRow where
  symbol : String
  lastBuy : ℚ
  pct : ℚ
  deriving DecidableEq

/-- Build the averaging-table row for one symbol: last (most recent) buy
price from the holdings, current price from the oracle (a failed fetch
skips the row, and pandas later drops its NaN `ChangePct`), and
`change_pct = round((current - last) * 100 / last, 2)`, defined as `0.0`
when the last buy price is zero. -/
def avgRowFor (cmp : String → Option ℚ) (holdings : List Holding)
    (s : String) : Option AvgRow :=
  match lastBuyRow (holdings.filter fun h => h.tradingSymbol = s) with
  | none => none
  | some h =>
    match cmp s with
    | none => none
    | some p =>
      some ⟨s, h.entry,
        if h.entry = 0 then 0 else round2 ((p - h.entry) * 100 / h.entry)⟩

/-- The priced averaging table, in alphabetical symbol order. -/
def avgTable (cmp : String → Option ℚ) (holdings : List Holding) :
    List AvgRow :=
  (uniqueSymbolsSorted holdings).filterMap (avgRowFor cmp holdings)

/-- `df = df[df['ChangePct'] <= -3]` (line 866). -/
def avgEligible (cmp : String → Option ℚ) (holdings : List Holding) :
    List AvgRow :=
  (avgTable cmp holdings).filter fun r => decide (r.pct ≤ -3)

/-- Sort key relation for `df.sort_values(['ChangePct'])`. -/
def pctLe (a b : AvgRow) : Prop := a.pct ≤ b.pct

instance : DecidableRel pctLe := fun a b =>
  inferInstanceAs (Decidable (a.pct ≤ b.pct))

instance : IsTotal AvgRow pctLe where
  total a b := le_total a.pct b.pct

instance : IsTrans AvgRow pctLe where
  trans _ _ _ := le_trans

/-- The averaging branch's single pick: the first row of the eligible table
sorted ascending by `ChangePct` (lines 872-895); `none` when no holding
qualifies.  The resulting BUY_AVERAGE order always succeeds because the
row's price fetch already succeeded.

`df.sort_values` uses numpy's default quicksort, which is stable only on
its small-array insertion-sort path (roughly up to 16 rows) and leaves the
relative order of rows with equal `ChangePct` unspecified beyond that; this
model fixes one admissible order by using a stable insertion sort.  Only
tie-independent consequences (the picked row is eligible with minimal
`ChangePct`) are claimed of the selection in general; concrete evaluations
of `avgSelect` are confined to tables small enough that numpy's sort is its
stable insertion sort, where the model is exact. -/
def avgSelect (cmp : String → Option ℚ) (holdings : List Holding) :
    Option String :=
  (List.insertionSort pctLe (avgEligible cmp holdings)).head?.map (·.symbol)

/-- Observable outcome of one run of `initiate_buy`: the BUY_NEW orders
placed, whether control reached the averaging branch (line 783 onward), and
the BUY_AVERAGE order placed there, if any. -/
structure BuyResult where
  newBuys : List String
  avgEvaluated : Bool
  avgOrder : Option String
  deriving DecidableEq

/-- `initiate_buy` (lines 726-909): run the new-position loop over the
eligible list; if any BUY_NEW order was placed, return immediately,
otherwise evaluate the averaging branch. -/
def initiate_buy (cmp : String → Option ℚ) (limit : ℕ)
    (holdings : List Holding) (stocks : List String) : BuyResult :=
  if (newBuysAux cmp limit holdings stocks 0).isEmpty then
    ⟨newBuysAux cmp limit holdings stocks 0, true, avgSelect cmp holdings⟩
  else ⟨newBuysAux cmp limit holdings stocks 0, false, none⟩

/-! ## Strategy orchestration (`execute_strategy`) -/

/-- The Nifty 50 universe fixed in `NiftyShopStrategy.__init__`. -/
def niftySymbols : List String :=
  ["ADANIENT", "ADANIPORTS", "APOLLOHOSP", "ASIANPAINT", "AXISBANK",
   "BAJAJ-AUTO", "BAJFINANCE", "BAJAJFINSV", "BEL", "BHARTIARTL",
   "CIPLA", "COALINDIA", "DRREDDY", "EICHERMOT", "ETERNAL",
   "GRASIM", "HCLTECH", "HDFCBANK", "HDFCLIFE", "HEROMOTOCO",
   "HINDALCO", "HINDUNILVR", "ICICIBANK", "ITC", "INDUSINDBK",
   "INFY", "JSWSTEEL", "JIOFIN", "KOTAKBANK", "LT",
   "M&M", "MARUTI", "NTPC", "NESTLEIND", "ONGC",
   "POWERGRID", "RELIANCE", "SBILIFE", "SHRIRAMFIN", "SBIN",
   "SUNPHARMA", "TCS", "TATACONSUM", "TATAMOTORS", "TATASTEEL",
   "TECHM", "TITAN", "TRENT", "ULTRACEMCO", "WIPRO"]

/-- Observable outcome of one `execute_strategy` run. -/
structure StratResult where
  stocksSold : ℕ
  buyPhaseRan : Bool
  newBuys : List String
  avgEvaluated : Bool
  avgOrder : Option String
  deriving DecidableEq

/-- The phases of `execute_strategy` applied to a given holdings snapshot
(both `initiate_sell` and `initiate_buy` re-fetch holdings, but within one
run the gateway answer is the same snapshot).  When the ranking produces no
eligible stocks the buy phase is skipped entirely (lines 923-939). -/
def execute_strategy_on (hist : String → Option (List ℚ))
    (cmp : String → Option ℚ) (limit : ℕ) (holdings : List Holding) :
    StratResult :=
  if (get_eligible_stocks_for_today hist niftySymbols).isEmpty then
    ⟨initiate_sell cmp holdings, false, [], false, none⟩
  else
    ⟨initiate_sell cmp holdings, true,
      (initiate_buy cmp limit holdings
        (get_eligible_stocks_for_today hist niftySymbols)).newBuys,
      (initiate_buy cmp limit holdings
        (get_eligible_stocks_for_today hist niftySymbols)).avgEvaluated,
      (initiate_buy cmp limit holdings
        (get_eligible_stocks_for_today hist niftySymbols)).avgOrder⟩

/-- `execute_strategy`, with the holdings snapshot obtained from the
holdings gateway (`resp = none` models the API request failing, in which
case the in-memory mock trades list is used). -/
def execute_strategy (hist : String → Option (List ℚ))
    (hist5 : String → Option (List ℚ)) (resp : Option HoldingsResponse)
    (now : ℕ) (mock : List Holding) (limit : ℕ) : StratResult :=
  execute_strategy_on hist (get_cmp hist5) limit
    (get_current_holdings resp now mock)

/-! ## Configuration (`src/utils/config_manager.py`) -/

/-- The three strategy parameters managed by `ConfigManager`. -/
structure Config where
  daily_trade_limit : ℤ
  profit_threshold_for_selling : ℚ
  loss_threshold_for_averaging : ℚ
  deriving DecidableEq

/-- The `default_config` values of `ConfigManager.__init__`. -/
def default_config : Config := ⟨1, 5, -3⟩

/-- `load_config`: returns the stored file contents merged over the
defaults, or the defaults when no file exists / loading fails.  No
validation is performed on the loaded values. -/
def load_config (file : Option Config) : Config :=
  match file with
  | none => default_config
  | some c => c

/-- `_validate_config` (lines 218-261): the three invariant checks followed
by the three "reasonable range" confirmations; `okLimit`, `okProfit`,
`okLoss` are the user's answers to the respective `Confirm.ask` prompts.
Returns a boolean; it never raises. -/
def validate_config (c : Config) (okLimit okProfit okLoss : Bool) : Bool :=
  if c.daily_trade_limit ≤ 0 then false
  else if c.profit_threshold_for_selling ≤ 0 then false
  else if 0 ≤ c.loss_threshold_for_averaging then false
  else if 10 < c.daily_trade_limit ∧ okLimit = false then false
  else if 50 < c.profit_threshold_for_selling ∧ okProfit = false then false
  else if c.loss_threshold_for_averaging < -20 ∧ okLoss = false then false
  else true

/-- `interactive_setup` (lines 163-184): `current` is the configuration
returned by `load_config`, `entered` the interactively entered parameters,
`confirmSave` the answer to the save confirmation.  On validation failure
the function prints a message and returns the *existing* settings; it never
raises and the caller proceeds with the returned configuration.  (A failed
save still returns the new configuration, so saving is not modelled.) -/
def interactive_setup (current entered : Config)
    (okLimit okProfit okLoss confirmSave : Bool) : Config :=
  if validate_config entered okLimit okProfit okLoss then
    if confirmSave then entered else current
  else current

/-! ## Generic helper: first minimum of a list -/

/-- First element of a list attaining the minimum w.r.t. `r` (the head of a
stable ascending sort). -/
def faminStep (r : α → α → Prop) [DecidableRel r] (x : α) :
    Option α → Option α
  | none => some x
  | some m => if r x m then some x else some m

def famin (r : α → α → Prop) [DecidableRel r] : List α → Option α :=
  List.foldr (faminStep r) none

/-! # Helper lemmas -/

theorem charListLt_irrefl : ∀ x : List Char, charListLt x x = false
  | [] => rfl
  | a :: as => by
    simp only [charListLt, lt_irrefl a.toNat, if_false]
    exact charListLt_irrefl as

theorem charListLt_asymm : ∀ x y : List Char,
    charListLt x y = true → charListLt y x = false
  | [], [] => by simp [charListLt]
  | [], _ :: _ => by simp [charListLt]
  | _ :: _, [] => by simp [charListLt]
  | a :: as, b :: bs => by
    intro h
    simp only [charListLt] at h ⊢
    rcases Nat.lt_trichotomy a.toNat b.toNat with hlt | heq | hgt
    · rw [if_neg (Nat.lt_asymm hlt), if_pos hlt]
    · rw [if_neg (by omega), if_neg (by omega)] at h
      rw [if_neg (by omega), if_neg (by omega)]
      exact charListLt_asymm as bs h
    · rw [if_neg (by omega), if_pos hgt] at h
      exact absurd h (by simp)

theorem charListLt_le_trans : ∀ x y z : List Char,
    charListLt y x = false → charListLt z y = false → charListLt z x = false
  | [], [], [] => fun _ _ => rfl
  | [], [], _ :: _ => fun _ h => h
  | [], _ :: _, z => by intro _ _; cases z <;> rfl
  | _ :: _, [], [] => fun h _ => h
  | _ :: _, [], _ :: _ => by simp [charListLt]
  | a :: as, b :: bs, [] => by simp [charListLt]
  | a :: as, b :: bs, c :: cs => by
    intro hba hcb
    simp only [charListLt] at hba hcb ⊢
    by_cases h1 : b.toNat < a.toNat
    · rw [if_pos h1] at hba; exact absurd hba (by simp)
    · by_cases h2 : c.toNat < b.toNat
      · rw [if_pos h2] at hcb; exact absurd hcb (by simp)
      · rw [if_neg (by omega : ¬c.toNat < a.toNat)]
        by_cases h3 : a.toNat < c.toNat
        · rw [if_pos h3]
        · rw [if_neg h3]
          rw [if_neg h1, if_neg (by omega : ¬a.toNat < b.toNat)] at hba
          rw [if_neg h2, if_neg (by omega : ¬b.toNat < c.toNat)] at hcb
          exact charListLt_le_trans as bs cs hba hcb

theorem strle_refl (a : String) : strle a a :=
  charListLt_irrefl a.data

theorem strle_total (a b : String) : strle a b ∨ strle b a := by
  unfold strle
  by_cases h : charListLt b.data a.data = true
  · exact Or.inr (charListLt_asymm _ _ h)
  · exact Or.inl (Bool.eq_false_iff.mpr h)

theorem strle_trans {a b c : String} (hab : strle a b) (hbc : strle b c) :
    strle a c :=
  charListLt_le_trans a.data b.data c.data hab hbc

theorem sorted_uniqueSymbolsSorted (holdings : List Holding) :
    List.Pairwise strle (uniqueSymbolsSorted holdings) :=
  @List.sorted_insertionSort String strle _ ⟨strle_total⟩
    ⟨fun _ _ _ => strle_trans⟩ _

theorem head?_orderedInsert (r : α → α → Prop) [DecidableRel r] (x : α)
    (l : List α) :
    (List.orderedInsert r x l).head? = faminStep r x l.head? := by
  cases l with
  | nil => rfl
  | cons y ys =>
    simp only [List.orderedInsert, faminStep]
    by_cases h : r x y
    · rw [if_pos h]; simp [h]
    · rw [if_neg h]; simp [h]

theorem head?_insertionSort (r : α → α → Prop) [DecidableRel r] :
    ∀ l : List α, (List.insertionSort r l).head? = famin r l
  | [] => rfl
  | x :: xs => by
    rw [List.insertionSort, head?_orderedInsert, head?_insertionSort r xs]
    rfl

theorem famin_ne_none (r : α → α → Prop) [DecidableRel r] (x : α)
    (l : List α) : famin r (x :: l) ≠ none := by
  show faminStep r x (famin r l) ≠ none
  cases famin r l with
  | none => simp [faminStep]
  | some m =>
    simp only [faminStep]
    split <;> simp

theorem famin_mem (r : α → α → Prop) [DecidableRel r] :
    ∀ (l : List α) (m : α), famin r l = some m → m ∈ l
  | [], m => by simp [famin]
  | x :: xs, m => by
    intro h
    replace h : faminStep r x (famin r xs) = some m := h
    cases hx : famin r xs with
    | none =>
      rw [hx] at h
      simp only [faminStep, Option.some.injEq] at h
      exact h ▸ List.mem_cons_self x xs
    | some m' =>
      rw [hx] at h
      simp only [faminStep] at h
      split at h
      · exact (Option.some.injEq _ _).mp h ▸ List.mem_cons_self x xs
      · exact List.mem_cons_of_mem x (famin_mem r xs m ((Option.some.injEq _ _).mp h ▸ hx))

theorem famin_pctLe_spec :
    ∀ l : List AvgRow, List.Pairwise (fun a b => strle a.symbol b.symbol) l →
      ∀ m, famin pctLe l = some m →
        ∀ x ∈ l, m.pct ≤ x.pct ∧ (x.pct = m.pct → strle m.symbol x.symbol)
  | [], _, m => by simp [famin]
  | a :: l, hp, m => by
    intro hm x hx
    replace hm : faminStep pctLe a (famin pctLe l) = some m := hm
    rcases List.pairwise_cons.mp hp with ⟨ha, hp'⟩
    cases hfl : famin pctLe l with
    | none =>
      cases l with
      | nil =>
        rw [hfl] at hm
        simp only [faminStep, Option.some.injEq] at hm
        subst hm
        rcases List.mem_singleton.mp hx with rfl
        exact ⟨le_refl _, fun _ => strle_refl _⟩
      | cons c cs => exact absurd hfl (famin_ne_none pctLe c cs)
    | some m' =>
      rw [hfl] at hm
      simp only [faminStep] at hm
      by_cases hle : pctLe a m'
      · rw [if_pos hle] at hm
        replace hm : a = m := (Option.some.injEq _ _).mp hm
        subst hm
        rcases List.mem_cons.mp hx with rfl | hx'
        · exact ⟨le_refl _, fun _ => strle_refl _⟩
        · have h2 := famin_pctLe_spec l hp' m' hfl x hx'
          exact ⟨le_trans hle h2.1, fun _ => ha x hx'⟩
      · rw [if_neg hle] at hm
        replace hm : m' = m := (Option.some.injEq _ _).mp hm
        subst hm
        have hlt : m'.pct < a.pct := lt_of_not_le hle
        rcases List.mem_cons.mp hx with rfl | hx'
        · exact ⟨le_of_lt hlt, fun hpe => absurd hpe (ne_of_gt hlt)⟩
        · exact famin_pctLe_spec l hp' m' hfl x hx'

theorem foldl_pickLater_spec :
    ∀ (l : List Holding) (m : Holding),
      ∃ h, l.foldl pickLater (some m) = some h ∧ (h = m ∨ h ∈ l) ∧
        m.createTimestamp ≤ h.createTimestamp ∧
        ∀ x ∈ l, x.createTimestamp ≤ h.createTimestamp
  | [], m => ⟨m, rfl, Or.inl rfl, le_refl _, by simp⟩
  | x :: l, m => by
    have step : pickLater (some m) x =
        some (if m.createTimestamp < x.createTimestamp then x else m) := by
      simp only [pickLater]
      split <;> rfl
    obtain ⟨h, h1, h2, h3, h4⟩ :=
      foldl_pickLater_spec l (if m.createTimestamp < x.createTimestamp then x else m)
    refine ⟨h, ?_, ?_, ?_, ?_⟩
    · rw [List.foldl_cons, step]; exact h1
    · rcases h2 with h2 | h2
      · by_cases hc : m.createTimestamp < x.createTimestamp
        · rw [if_pos hc] at h2; exact Or.inr (h2 ▸ List.mem_cons_self x l)
        · rw [if_neg hc] at h2; exact Or.inl h2
      · exact Or.inr (List.mem_cons_of_mem x h2)
    · by_cases hc : m.createTimestamp < x.createTimestamp
      · rw [if_pos hc] at h3; omega
      · rw [if_neg hc] at h3; exact h3
    · intro y hy
      rcases List.mem_cons.mp hy with rfl | hy'
      · by_cases hc : m.createTimestamp < y.createTimestamp
        · rw [if_pos hc] at h3; exact h3
        · rw [if_neg hc] at h3; omega
      · exact h4 y hy'

theorem lastBuyRow_spec (hs : List Holding) (h : Holding)
    (hh : lastBuyRow hs = some h) :
    h ∈ hs ∧ ∀ x ∈ hs, x.createTimestamp ≤ h.createTimestamp := by
  cases hs with
  | nil => exact absurd hh (by simp [lastBuyRow])
  | cons x l =>
    have : lastBuyRow (x :: l) = l.foldl pickLater (some x) := rfl
    rw [this] at hh
    obtain ⟨h', h1, h2, h3, h4⟩ := foldl_pickLater_spec l x
    rw [h1] at hh
    replace hh : h' = h := (Option.some.injEq _ _).mp hh
    subst hh
    constructor
    · rcases h2 with rfl | h2
      · exact List.mem_cons_self _ _
      · exact List.mem_cons_of_mem _ h2
    · intro y hy
      rcases List.mem_cons.mp hy with rfl | hy'
      · exact h3
      · exact h4 y hy'

theorem newBuysAux_stop (cmp : String → Option ℚ) (limit : ℕ)
    (holdings : List Holding) :
    ∀ (stocks : List String) (b : ℕ), limit ≤ b →
      newBuysAux cmp limit holdings stocks b = []
  | [], _, _ => rfl
  | stock :: rest, b, hb => by
    simp only [newBuysAux]
    by_cases h1 : isHeld holdings stock
    · rw [if_pos h1]; exact newBuysAux_stop cmp limit holdings rest b hb
    · rw [if_neg h1, if_neg (by omega : ¬b < limit)]
      exact newBuysAux_stop cmp limit holdings rest b hb

theorem newBuysAux_length (cmp : String → Option ℚ) (limit : ℕ)
    (holdings : List Holding) :
    ∀ (stocks : List String) (b : ℕ),
      (newBuysAux cmp limit holdings stocks b).length ≤ limit - b
  | [], _ => by simp [newBuysAux]
  | stock :: rest, b => by
    simp only [newBuysAux]
    by_cases h1 : isHeld holdings stock
    · rw [if_pos h1]; exact newBuysAux_length cmp limit holdings rest b
    · rw [if_neg h1]
      by_cases h2 : b < limit
      · rw [if_pos h2]
        cases hc : cmp stock with
        | none => exact newBuysAux_length cmp limit holdings rest b
        | some p =>
          simp only [List.length_cons]
          have := newBuysAux_length cmp limit holdings rest (b + 1)
          omega
      · rw [if_neg h2]; exact newBuysAux_length cmp limit holdings rest b

theorem newBuysAux_nil_iff (cmp : String → Option ℚ) (limit : ℕ)
    (holdings : List Holding) :
    ∀ (stocks : List String) (b : ℕ), b < limit →
      (∀ s ∈ stocks, (cmp s).isSome = true) →
      (newBuysAux cmp limit holdings stocks b = [] ↔
        ∀ s ∈ stocks, isHeld holdings s = true)
  | [], b, _, _ => by simp [newBuysAux]
  | stock :: rest, b, hb, hcmp => by
    simp only [newBuysAux]
    by_cases h1 : isHeld holdings stock
    · rw [if_pos h1]
      rw [newBuysAux_nil_iff cmp limit holdings rest b hb
        (fun s hs => hcmp s (List.mem_cons_of_mem _ hs))]
      constructor
      · intro h s hs
        rcases List.mem_cons.mp hs with rfl | hs'
        · exact h1
        · exact h s hs'
      · intro h s hs; exact h s (List.mem_cons_of_mem _ hs)
    · rw [if_neg h1, if_pos hb]
      cases hc : cmp stock with
      | none =>
        exact absurd (hcmp stock (List.mem_cons_self _ _)) (by simp [hc])
      | some p =>
        simp only [List.cons_ne_nil, false_iff, not_forall]
        exact ⟨stock, List.mem_cons_self _ _, h1⟩

theorem roundHalfEven_intCast (n : ℤ) : roundHalfEven ((n : ℚ)) = n := by
  unfold roundHalfEven
  norm_num

theorem round2_intCast (q : ℚ) (n : ℤ) (h : q * 100 = (n : ℚ)) :
    round2 q = (n : ℚ) / 100 := by
  unfold round2
  rw [h, roundHalfEven_intCast]

theorem avgRowFor_eq_some {cmp : String → Option ℚ} {holdings : List Holding}
    {s : String} {r : AvgRow} (h : avgRowFor cmp holdings s = some r) :
    r.symbol = s ∧ ∃ hh ∈ holdings, hh.tradingSymbol = s ∧
      r.lastBuy = hh.entry ∧
      (∀ h2 ∈ holdings, h2.tradingSymbol = s →
        h2.createTimestamp ≤ hh.createTimestamp) ∧
      ∃ p, cmp s = some p ∧
        r.pct = if hh.entry = 0 then 0
          else round2 ((p - hh.entry) * 100 / hh.entry) := by
  unfold avgRowFor at h
  cases h1 : lastBuyRow (holdings.filter fun h => h.tradingSymbol = s) with
  | none => rw [h1] at h; exact absurd h (by simp)
  | some hh =>
    rw [h1] at h
    cases h2 : cmp s with
    | none => rw [h2] at h; exact absurd h (by simp)
    | some p =>
      rw [h2] at h
      replace h : (⟨s, hh.entry,
          if hh.entry = 0 then 0
          else round2 ((p - hh.entry) * 100 / hh.entry)⟩ : AvgRow) = r :=
        (Option.some.injEq _ _).mp h
      obtain ⟨hmem, hmax⟩ := lastBuyRow_spec _ _ h1
      rw [List.mem_filter] at hmem
      constructor
      · rw [← h]
      · refine ⟨hh, hmem.1, by simpa using hmem.2, by rw [← h], ?_, ?_⟩
        · intro h2' hmem2 hsym2
          exact hmax h2' (List.mem_filter.mpr ⟨hmem2, by simpa using hsym2⟩)
        · exact ⟨p, rfl, by rw [← h]⟩

theorem mem_avgTable {cmp : String → Option ℚ} {holdings : List Holding}
    {r : AvgRow} (h : r ∈ avgTable cmp holdings) :
    ∃ s, avgRowFor cmp holdings s = some r := by
  obtain ⟨s, _, hs⟩ := List.mem_filterMap.mp h
  exact ⟨s, hs⟩

theorem avgTable_pairwise (cmp : String → Option ℚ) (holdings : List Holding) :
    List.Pairwise (fun a b => strle a.symbol b.symbol)
      (avgTable cmp holdings) := by
  refine List.Pairwise.filterMap _ ?_ (sorted_uniqueSymbolsSorted holdings)
  intro a a' hr b hb b' hb'
  rw [Option.mem_def] at hb hb'
  rw [(avgRowFor_eq_some hb).1, (avgRowFor_eq_some hb').1]
  exact hr

theorem mem_avgEligible {cmp : String → Option ℚ} {holdings : List Holding}
    {r : AvgRow} :
    r ∈ avgEligible cmp holdings ↔ r ∈ avgTable cmp holdings ∧ r.pct ≤ -3 := by
  simp [avgEligible, List.mem_filter]

theorem avgEligible_pairwise (cmp : String → Option ℚ)
    (holdings : List Holding) :
    List.Pairwise (fun a b => strle a.symbol b.symbol)
      (avgEligible cmp holdings) :=
  (avgTable_pairwise cmp holdings).filter _

theorem processSymbol_eq_some {hist : String → Option (List ℚ)} {s : String}
    {r : RankRow} (h : processSymbol hist s = some r) :
    r.symbol = s ∧ ∃ closes c dma, hist s = some closes ∧
      closes.getLast? = some c ∧ latestDMA closes = some dma ∧ c < dma ∧
      r = ⟨s, devOf c dma, c, dma⟩ := by
  unfold processSymbol at h
  cases h1 : hist s with
  | none => rw [h1] at h; exact absurd h (by simp)
  | some closes =>
    rw [h1] at h
    replace h : (if closes.isEmpty then none
        else match latestDMA closes, closes.getLast? with
          | some dma, some c =>
            if c < dma then some (⟨s, devOf c dma, c, dma⟩ : RankRow)
            else none
          | _, _ => none) = some r := h
    by_cases he : closes.isEmpty
    · rw [if_pos he] at h; exact absurd h (by simp)
    · rw [if_neg he] at h
      cases h2 : latestDMA closes with
      | none => rw [h2] at h; exact absurd h (by cases closes.getLast? <;> simp)
      | some dma =>
        rw [h2] at h
        cases h3 : closes.getLast? with
        | none => rw [h3] at h; exact absurd h (by simp)
        | some c =>
          rw [h3] at h
          replace h : (if c < dma then
              some (⟨s, devOf c dma, c, dma⟩ : RankRow) else none) = some r := h
          by_cases h4 : c < dma
          · rw [if_pos h4] at h
            replace h := (Option.some.injEq _ _).mp h
            exact ⟨by rw [← h], closes, c, dma, rfl, h3, h2, h4, h.symm⟩
          · rw [if_neg h4] at h; exact absurd h (by simp)

theorem mem_rank_imp {hist : String → Option (List ℚ)} {syms : List String}
    {s : String} (h : s ∈ get_eligible_stocks_for_today hist syms) :
    ∃ r, r ∈ top5rows hist syms ∧ r.symbol = s ∧
      ∃ u ∈ syms, processSymbol hist u = some r := by
  obtain ⟨r, hr, hs⟩ := List.mem_map.mp h
  have hr' : r ∈ sortedResults hist syms := List.mem_of_mem_take hr
  have hmem : r ∈ belowDMAResults hist syms :=
    (List.mem_insertionSort rowLe).mp hr'
  obtain ⟨u, hu, hf⟩ := List.mem_filterMap.mp hmem
  exact ⟨r, hr, hs, u, hu, hf⟩

theorem avgSelect_eq_some {cmp : String → Option ℚ} {holdings : List Holding}
    {s : String} (h : avgSelect cmp holdings = some s) :
    ∃ r, famin pctLe (avgEligible cmp holdings) = some r ∧ r.symbol = s := by
  unfold avgSelect at h
  rw [head?_insertionSort] at h
  cases hf : famin pctLe (avgEligible cmp holdings) with
  | none => rw [hf] at h; exact absurd h (by simp)
  | some r =>
    rw [hf] at h
    exact ⟨r, rfl, by simpa using h⟩

/-! # Claims -/

/-- C1: in every run of the buy phase, at most `daily_trade_limit` BUY_NEW
orders are placed no matter how many unowned candidates remain, and the
averaging branch places at most one BUY_AVERAGE order. -/
theorem C1_buy_phase_order_limits (cmp : String → Option ℚ) (limit : ℕ)
    (holdings : List Holding) (stocks : List String) :
    (initiate_buy cmp limit holdings stocks).newBuys.length ≤ limit ∧
    (initiate_buy cmp limit holdings stocks).avgOrder.toList.length ≤ 1 := by
  have h := newBuysAux_length cmp limit holdings stocks 0
  rw [Nat.sub_zero] at h
  constructor
  · unfold initiate_buy
    split <;> exact h
  · unfold initiate_buy
    split
    · cases avgSelect cmp holdings <;> simp
    · simp

theorem sellCheck_eq_some {cmp : String → Option ℚ} {h : Holding}
    {pr : Holding × ℚ} (he : sellCheck cmp h = some pr) :
    pr.1 = h ∧ ∃ p, cmp h.tradingSymbol = some p ∧ h.entry ≠ 0 ∧
      pr.2 = (p - h.entry) / h.entry * 100 ∧ 5 < pr.2 := by
  unfold sellCheck at he
  cases hc : cmp h.tradingSymbol with
  | none => rw [hc] at he; exact absurd he (by simp)
  | some p =>
    rw [hc] at he
    replace he : (if h.entry = 0 then (none : Option (Holding × ℚ))
        else if 5 < (p - h.entry) / h.entry * 100 then
          some (h, (p - h.entry) / h.entry * 100) else none) = some pr := he
    by_cases hz : h.entry = 0
    · rw [if_pos hz] at he; exact absurd he (by simp)
    · rw [if_neg hz] at he
      by_cases hgt : 5 < (p - h.entry) / h.entry * 100
      · rw [if_pos hgt] at he
        replace he : (h, (p - h.entry) / h.entry * 100) = pr :=
          (Option.some.injEq _ _).mp he
        exact ⟨by rw [← he], p, rfl, hz, by rw [← he], by rw [← he]; exact hgt⟩
      · rw [if_neg hgt] at he; exact absurd he (by simp)

theorem sellCheck_of_profit {cmp : String → Option ℚ} {h : Holding} {p : ℚ}
    (hp : cmp h.tradingSymbol = some p) (hz : h.entry ≠ 0)
    (hgt : 5 < (p - h.entry) / h.entry * 100) :
    sellCheck cmp h = some (h, (p - h.entry) / h.entry * 100) := by
  unfold sellCheck
  rw [hp]
  show (if h.entry = 0 then (none : Option (Holding × ℚ))
      else if 5 < (p - h.entry) / h.entry * 100 then
        some (h, (p - h.entry) / h.entry * 100) else none) = _
  rw [if_neg hz, if_pos hgt]

theorem sellCheck_of_cmp_none {cmp : String → Option ℚ} {h : Holding}
    (hc : cmp h.tradingSymbol = none) : sellCheck cmp h = none := by
  unfold sellCheck
  rw [hc]

/-- C4: a holding with an available current price and a nonzero entry price
is selected for selling if and only if
`profit_pct = (current - entry) / entry * 100` is strictly greater than the
threshold `5.0`; at exactly `5.0` it is not sold. -/
theorem C4_sell_iff_profit_above_threshold (cmp : String → Option ℚ)
    (holdings : List Holding) (h : Holding) (p : ℚ) (hmem : h ∈ holdings)
    (hp : cmp h.tradingSymbol = some p) (hz : h.entry ≠ 0) :
    h ∈ (profitable_holdings cmp holdings).map Prod.fst ↔
      5 < (p - h.entry) / h.entry * 100 := by
  constructor
  · intro hin
    obtain ⟨pr, hpr, hfst⟩ := List.mem_map.mp hin
    obtain ⟨a, _, hfa⟩ := List.mem_filterMap.mp hpr
    obtain ⟨h1, p', hp', _, hpct, hgt⟩ := sellCheck_eq_some hfa
    have ha : a = h := by rw [← hfst, h1]
    subst ha
    rw [hp] at hp'
    replace hp' : p' = p := by simpa using hp'.symm
    subst hp'
    rw [hpct] at hgt
    exact hgt
  · intro hgt
    exact List.mem_map.mpr ⟨(h, (p - h.entry) / h.entry * 100),
      List.mem_filterMap.mpr ⟨h, hmem, sellCheck_of_profit hp hz hgt⟩, rfl⟩

/-- C4 witness: a holding bought at 100 with current price 106 (6 percent
profit) is selected for selling. -/
theorem C4_sell_iff_profit_above_threshold_witness :
    (⟨"X", 100, 1, 0⟩ : Holding) ∈
      (profitable_holdings (fun _ => some 106)
        [⟨"X", 100, 1, 0⟩]).map Prod.fst :=
  (C4_sell_iff_profit_above_threshold (fun _ => some 106) [⟨"X", 100, 1, 0⟩]
    ⟨"X", 100, 1, 0⟩ 106 (List.mem_singleton.mpr rfl) rfl
    (by norm_num)).mpr (by norm_num)

/-- C8: a holding whose current price cannot be fetched during the sell
phase is skipped: the analysis of the remaining holdings is unchanged, the
count of sell orders is unchanged, and no sell decision is emitted for the
skipped holding. -/
theorem C8_missing_price_skips_holding (cmp : String → Option ℚ)
    (xs ys : List Holding) (h : Holding)
    (hc : cmp h.tradingSymbol = none) :
    profitable_holdings cmp (xs ++ h :: ys) =
      profitable_holdings cmp (xs ++ ys) ∧
    initiate_sell cmp (xs ++ h :: ys) = initiate_sell cmp (xs ++ ys) ∧
    (h ∉ xs ++ ys →
      h ∉ (profitable_holdings cmp (xs ++ h :: ys)).map Prod.fst) := by
  have heq : profitable_holdings cmp (xs ++ h :: ys) =
      profitable_holdings cmp (xs ++ ys) := by
    unfold profitable_holdings
    rw [List.filterMap_append, List.filterMap_append,
      List.filterMap_cons_none (sellCheck_of_cmp_none hc)]
  refine ⟨heq, by unfold initiate_sell; rw [heq], ?_⟩
  intro hnot hin
  rw [heq] at hin
  obtain ⟨pr, hpr, hfst⟩ := List.mem_map.mp hin
  obtain ⟨a, ha, hfa⟩ := List.mem_filterMap.mp hpr
  have h1 := (sellCheck_eq_some hfa).1
  rw [← hfst, h1] at hnot
  exact hnot ha

/-- C8 witness: with a price oracle that fails on "Y", the holding "Y" is
skipped while the profitable holding "X" is still sold. -/
theorem C8_missing_price_skips_holding_witness :
    profitable_holdings
        (fun s => if s = "X" then some 106 else none)
        [⟨"X", 100, 1, 0⟩, ⟨"Y", 100, 1, 1⟩] =
      profitable_holdings (fun s => if s = "X" then some 106 else none)
        [⟨"X", 100, 1, 0⟩] ∧
    (⟨"Y", 100, 1, 1⟩ : Holding) ∉
      (profitable_holdings (fun s => if s = "X" then some 106 else none)
        [⟨"X", 100, 1, 0⟩, ⟨"Y", 100, 1, 1⟩]).map Prod.fst := by
  have h := C8_missing_price_skips_holding
    (fun s => if s = "X" then some 106 else none)
    [⟨"X", 100, 1, 0⟩] [] ⟨"Y", 100, 1, 1⟩ (by decide)
  exact ⟨h.1, h.2.2 (by decide)⟩

/-- C10: when the holdings API request fails with an exception, the
holdings fetch returns the in-memory mock trades list (initially empty),
and the whole strategy run proceeds against that fallback snapshot. -/
theorem C10_holdings_fallback_to_mock (now : ℕ) (mock : List Holding) :
    get_current_holdings none now mock = mock ∧
    get_current_holdings none now [] = ([] : List Holding) ∧
    ∀ (hist hist5 : String → Option (List ℚ)) (limit : ℕ),
      execute_strategy hist hist5 none now mock limit =
        execute_strategy_on hist (get_cmp hist5) limit mock :=
  ⟨rfl, rfl, fun _ _ _ => rfl⟩

/-- C5: every ranked symbol's latest close is strictly below its 20-day
moving average, the ranking rows are ordered ascending by deviation, and at
most 5 symbols are returned. -/
theorem C5_ranking_postcondition (hist : String → Option (List ℚ))
    (syms : List String) :
    (get_eligible_stocks_for_today hist syms).length ≤ 5 ∧
    List.Pairwise rowLe (top5rows hist syms) ∧
    get_eligible_stocks_for_today hist syms =
      (top5rows hist syms).map (·.symbol) ∧
    ∀ s ∈ get_eligible_stocks_for_today hist syms,
      ∃ closes c dma, hist s = some closes ∧ closes.getLast? = some c ∧
        latestDMA closes = some dma ∧ c < dma ∧
        (⟨s, devOf c dma, c, dma⟩ : RankRow) ∈ top5rows hist syms := by
  refine ⟨?_, ?_, rfl, ?_⟩
  · unfold get_eligible_stocks_for_today
    rw [List.length_map]
    exact List.length_take_le _ _
  · exact List.Pairwise.sublist (List.take_sublist _ _)
      (List.sorted_insertionSort rowLe _)
  · intro s hs
    obtain ⟨r, hr5, hsym, u, hu, hf⟩ := mem_rank_imp hs
    obtain ⟨husym, closes, c, dma, h1, h2, h3, h4, hr⟩ :=
      processSymbol_eq_some hf
    have hus : u = s := by rw [← husym, hsym]
    subst hus
    refine ⟨closes, c, dma, h1, h2, h3, h4, ?_⟩
    rw [← hr]
    exact hr5

/-- C5 witness: a universe of one symbol whose 20 closes average 97.5 with
latest close 50 yields exactly that symbol, whose row is in the top-5 rows
with close 50 strictly below the moving average 97.5. -/
theorem C5_ranking_postcondition_witness :
    (⟨"A", devOf 50 (195 / 2), 50, (195 / 2 : ℚ)⟩ : RankRow) ∈
      top5rows (fun _ => some (List.replicate 19 (100 : ℚ) ++ [50])) ["A"] ∧
    (50 : ℚ) < 195 / 2 := by
  obtain ⟨closes, c, dma, h1, h2, h3, h4, h5⟩ :=
    (C5_ranking_postcondition
        (fun _ => some (List.replicate 19 (100 : ℚ) ++ [50])) ["A"]).2.2.2 "A"
      (by
        norm_num [get_eligible_stocks_for_today, top5rows, sortedResults,
          belowDMAResults, processSymbol, latestDMA, devOf,
          List.insertionSort, List.sum_replicate, List.getLast?_concat,
          List.filterMap_cons])
  have hcl : closes = List.replicate 19 (100 : ℚ) ++ [50] := by
    simpa using h1.symm
  subst hcl
  have hc : c = 50 := by
    have := h2
    rw [List.getLast?_concat] at this
    simpa using this.symm
  subst hc
  have hdma : dma = 195 / 2 := by
    rw [show latestDMA (List.replicate 19 (100 : ℚ) ++ [50]) =
        some (195 / 2) from by norm_num [latestDMA, List.sum_replicate]] at h3
    simpa using h3.symm
  subst hdma
  exact ⟨h5, by norm_num⟩

/-- C6: a symbol whose price history is missing or has fewer than 20 closes
is skipped without error: the ranking over the rest of the universe is
unchanged and the symbol never appears in any ranking output. -/
theorem C6_short_history_skipped (hist : String → Option (List ℚ))
    (xs ys : List String) (s : String)
    (hshort : ∀ closes, hist s = some closes → closes.length < 20) :
    get_eligible_stocks_for_today hist (xs ++ s :: ys) =
      get_eligible_stocks_for_today hist (xs ++ ys) ∧
    ∀ syms, s ∉ get_eligible_stocks_for_today hist syms := by
  have hnone : processSymbol hist s = none := by
    unfold processSymbol
    cases h1 : hist s with
    | none => rfl
    | some closes =>
      have hlen := hshort closes h1
      show (if closes.isEmpty then none
          else match latestDMA closes, closes.getLast? with
            | some dma, some c =>
              if c < dma then some (⟨s, devOf c dma, c, dma⟩ : RankRow)
              else none
            | _, _ => none) = none
      by_cases he : closes.isEmpty
      · rw [if_pos he]
      · rw [if_neg he]
        have hdma : latestDMA closes = none := by
          unfold latestDMA
          rw [if_neg (by omega)]
        rw [hdma]
  constructor
  · unfold get_eligible_stocks_for_today top5rows sortedResults
      belowDMAResults
    rw [List.filterMap_append, List.filterMap_append,
      List.filterMap_cons_none hnone]
  · intro syms hmem
    obtain ⟨r, _, hsym, u, hu, hf⟩ := mem_rank_imp hmem
    have husym := (processSymbol_eq_some hf).1
    have hus : u = s := by rw [← husym, hsym]
    subst hus
    rw [hnone] at hf
    exact absurd hf (by simp)

/-- C6 witness: a symbol with only 3 closes is dropped from the universe
without affecting the others, and never ranks. -/
theorem C6_short_history_skipped_witness :
    get_eligible_stocks_for_today (fun _ => some [1, 2, 3]) (["A"] ++ "S" :: []) =
      get_eligible_stocks_for_today (fun _ => some [1, 2, 3]) (["A"] ++ []) ∧
    "S" ∉ get_eligible_stocks_for_today (fun _ => some [1, 2, 3]) ["A", "S"] := by
  have h := C6_short_history_skipped (fun _ => some [1, 2, 3]) ["A"] [] "S"
    (fun closes hc => by
      replace hc : some [(1 : ℚ), 2, 3] = some closes := hc
      rw [show closes = [(1 : ℚ), 2, 3] from by simpa using hc.symm]
      norm_num)
  exact ⟨h.1, h.2 ["A", "S"]⟩

/-- C7 counterexample: with a (degenerate) history of 19 closes of 1 and a
latest close of -19, the 20-day moving average is 0, yet the symbol is not
excluded: it appears in the ranking output (the float code computes a
-inf deviation and no crash occurs).  The claim asserts such a symbol is
always excluded. -/
theorem C7_counterexample :
    latestDMA (List.replicate 19 (1 : ℚ) ++ [-19]) = some 0 ∧
    get_eligible_stocks_for_today
        (fun _ => some (List.replicate 19 (1 : ℚ) ++ [-19])) ["Z"] = ["Z"] := by
  constructor
  · norm_num [latestDMA, List.sum_replicate]
  · norm_num [get_eligible_stocks_for_today, top5rows, sortedResults,
      belowDMAResults, processSymbol, latestDMA, devOf, List.insertionSort,
      List.sum_replicate, List.getLast?_concat, List.filterMap_cons]

/-- C7 (amended): when all closes are nonnegative — as market prices are —
a zero 20-day moving average forces the latest close to fail the strict
`latest_close < moving_average` test, so the symbol is excluded from the
ranking, and no crash occurs (the code never divides when deciding
membership). -/
theorem C7_zero_dma_excluded (hist : String → Option (List ℚ))
    (syms : List String) (s : String) (closes : List ℚ)
    (h1 : hist s = some closes) (hnn : ∀ c ∈ closes, 0 ≤ c)
    (h0 : latestDMA closes = some 0) :
    s ∉ get_eligible_stocks_for_today hist syms := by
  intro hmem
  obtain ⟨r, _, hsym, u, hu, hf⟩ := mem_rank_imp hmem
  obtain ⟨husym, closes', c, dma, h1', h2', h3', h4', hr⟩ :=
    processSymbol_eq_some hf
  have hus : u = s := by rw [← husym, hsym]
  subst hus
  rw [h1] at h1'
  replace h1' : closes = closes' := by simpa using h1'
  subst h1'
  rw [h0] at h3'
  replace h3' : (0 : ℚ) = dma := by simpa using h3'
  subst h3'
  have hc : c ∈ closes := List.mem_of_getLast?_eq_some h2'
  exact absurd h4' (not_lt.mpr (hnn c hc))

/-- C7 amended witness: a symbol whose 20 closes are all 0 has moving
average 0 and is excluded from the ranking. -/
theorem C7_zero_dma_excluded_witness :
    "A" ∉ get_eligible_stocks_for_today
        (fun _ => some (List.replicate 20 (0 : ℚ))) ["A"] :=
  C7_zero_dma_excluded (fun _ => some (List.replicate 20 (0 : ℚ))) ["A"] "A"
    (List.replicate 20 (0 : ℚ)) rfl
    (fun c hc => le_of_eq (List.eq_of_mem_replicate hc).symm)
    (by norm_num [latestDMA, List.sum_replicate])

/-- C2 counterexample: on a run where the ranking finds no candidates at
all ("every candidate is already held" holds vacuously and "no candidates
exist to buy fresh" holds literally), `execute_strategy` returns before the
buy phase, so the averaging branch is *not* evaluated — contradicting the
claim that it is evaluated whenever every candidate is held or none
exist. -/
theorem C2_counterexample :
    get_eligible_stocks_for_today (fun _ => none) niftySymbols = [] ∧
    (execute_strategy (fun _ => none) (fun _ => none)
        (some ⟨true, some []⟩) 0 [] 1).buyPhaseRan = false ∧
    (execute_strategy (fun _ => none) (fun _ => none)
        (some ⟨true, some []⟩) 0 [] 1).avgEvaluated = false := by
  refine ⟨rfl, rfl, rfl⟩

/-- C2 (amended): the two buy branches are mutually exclusive — if at least
one BUY_NEW order is placed the averaging branch is not evaluated.  Inside
`initiate_buy` the averaging branch is evaluated exactly when no BUY_NEW
order was placed, which — when every candidate has a fetchable price and
the daily limit is positive — happens exactly when every candidate is
already held.  A run whose candidate list is empty skips the buy phase
entirely, so the averaging branch is not evaluated on such runs. -/
theorem C2_buy_branch_exclusivity (cmp : String → Option ℚ) (limit : ℕ)
    (holdings : List Holding) (stocks : List String)
    (hist hist5 : String → Option (List ℚ)) (resp : Option HoldingsResponse)
    (now : ℕ) (mock : List Holding) :
    ((initiate_buy cmp limit holdings stocks).newBuys ≠ [] →
      (initiate_buy cmp limit holdings stocks).avgEvaluated = false) ∧
    ((initiate_buy cmp limit holdings stocks).avgEvaluated = true ↔
      (initiate_buy cmp limit holdings stocks).newBuys = []) ∧
    ((∀ s ∈ stocks, (cmp s).isSome = true) → 0 < limit →
      ((initiate_buy cmp limit holdings stocks).avgEvaluated = true ↔
        ∀ s ∈ stocks, isHeld holdings s = true)) ∧
    (get_eligible_stocks_for_today hist niftySymbols = [] →
      (execute_strategy hist hist5 resp now mock limit).avgEvaluated
        = false) := by
  have hnb : (initiate_buy cmp limit holdings stocks).newBuys =
      newBuysAux cmp limit holdings stocks 0 := by
    unfold initiate_buy
    split <;> rfl
  have hiff : (initiate_buy cmp limit holdings stocks).avgEvaluated = true ↔
      newBuysAux cmp limit holdings stocks 0 = [] := by
    unfold initiate_buy
    split
    case isTrue h => exact iff_of_true rfl (List.isEmpty_iff.mp h)
    case isFalse h =>
      exact iff_of_false (by simp) fun hh => h (List.isEmpty_iff.mpr hh)
  refine ⟨?_, ?_, ?_, ?_⟩
  · intro hne
    cases hb : (initiate_buy cmp limit holdings stocks).avgEvaluated
    · rfl
    · exact absurd (by rw [hnb]; exact hiff.mp hb) hne
  · rw [hnb]; exact hiff
  · intro hall hlim
    exact hiff.trans
      (newBuysAux_nil_iff cmp limit holdings stocks 0 hlim hall)
  · intro hel
    unfold execute_strategy execute_strategy_on
    rw [hel]
    rfl

/-- C2 amended witness: one unheld candidate with an available price and
limit 1 makes a BUY_NEW order happen, so the averaging branch is not
evaluated. -/
theorem C2_buy_branch_exclusivity_witness :
    (initiate_buy (fun _ => some (1 : ℚ)) 1 [] ["A"]).avgEvaluated = false := by
  have h := (C2_buy_branch_exclusivity (fun _ => some (1 : ℚ)) 1 [] ["A"]
    (fun _ => none) (fun _ => none) none 0 []).2.2.1
    (fun s _ => rfl) (by norm_num)
  cases hb : (initiate_buy (fun _ => some (1 : ℚ)) 1 [] ["A"]).avgEvaluated
  · rfl
  · have hall := h.mp hb "A" (List.mem_singleton.mpr rfl)
    exact absurd hall (by simp [isHeld])

/-- C3 counterexample: two holdings B then A (holdings order), both with
last buy price 100 and current price 95, tie at change_pct -5.  The claim's
tie-break ("first encountered in holdings order") demands B, but the code's
deduplicated table is sorted alphabetically by the pandas groupby, so the
BUY_AVERAGE order is placed for A. -/
theorem C3_counterexample :
    (([⟨"B", 100, 1, 0⟩, ⟨"A", 100, 1, 0⟩] : List Holding).head?.map
        (·.tradingSymbol)) = some "B" ∧
    avgEligible (fun _ => some 95) [⟨"B", 100, 1, 0⟩, ⟨"A", 100, 1, 0⟩] =
      [⟨"A", 100, -5⟩, ⟨"B", 100, -5⟩] ∧
    avgSelect (fun _ => some 95) [⟨"B", 100, 1, 0⟩, ⟨"A", 100, 1, 0⟩] =
      some "A" := by
  refine ⟨rfl, ?_, ?_⟩
  · norm_num [avgEligible, avgTable, avgRowFor, uniqueSymbolsSorted,
      lastBuyRow, pickLater, List.insertionSort, List.orderedInsert,
      List.dedup, List.filterMap_cons, List.filter_cons,
      (show ¬ strle "B" "A" by decide), (show ("B" : String) ≠ "A" by decide),
      (show ("A" : String) ≠ "B" by decide),
      round2_intCast (-5 : ℚ) (-500) (by norm_num)]
  · norm_num [avgSelect, avgEligible, avgTable, avgRowFor,
      uniqueSymbolsSorted, lastBuyRow, pickLater, List.insertionSort,
      List.orderedInsert, List.dedup, List.filterMap_cons, List.filter_cons,
      pctLe,
      (show ¬ strle "B" "A" by decide), (show ("B" : String) ≠ "A" by decide),
      (show ("A" : String) ≠ "B" by decide),
      round2_intCast (-5 : ℚ) (-500) (by norm_num)]

/-- C3 (amended): in the averaging branch each table row carries the most
recent acquisition price of its symbol (latest timestamp, first such row on
ties) and `change_pct = round((current - last_buy) * 100 / last_buy, 2)`
(0 when `last_buy = 0`); exactly the rows with rounded `change_pct <= -3`
are eligible; and the BUY_AVERAGE order goes to an eligible row with
minimal rounded `change_pct`.  Among rows tied at the minimum the program
fixes no particular pick — `sort_values` uses numpy's unstable quicksort —
and in particular the tie-break is not holdings order (the counterexample's
two-row table, where numpy's sort is its stable insertion sort, buys the
alphabetically first symbol instead). -/
theorem C3_averaging_selection (cmp : String → Option ℚ)
    (holdings : List Holding) :
    (∀ r ∈ avgTable cmp holdings, ∃ hh ∈ holdings,
      hh.tradingSymbol = r.symbol ∧ r.lastBuy = hh.entry ∧
      (∀ h2 ∈ holdings, h2.tradingSymbol = r.symbol →
        h2.createTimestamp ≤ hh.createTimestamp) ∧
      ∃ p, cmp r.symbol = some p ∧
        r.pct = if r.lastBuy = 0 then 0
          else round2 ((p - r.lastBuy) * 100 / r.lastBuy)) ∧
    (∀ r, r ∈ avgEligible cmp holdings ↔
      r ∈ avgTable cmp holdings ∧ r.pct ≤ -3) ∧
    (∀ s, avgSelect cmp holdings = some s →
      ∃ r ∈ avgEligible cmp holdings, r.symbol = s ∧
        ∀ r2 ∈ avgEligible cmp holdings, r.pct ≤ r2.pct) := by
  refine ⟨?_, fun _ => mem_avgEligible, ?_⟩
  · intro r hr
    obtain ⟨s, hf⟩ := mem_avgTable hr
    obtain ⟨hsym, hh, hmem, hhs, hlb, hmax, p, hp, hpct⟩ :=
      avgRowFor_eq_some hf
    subst hsym
    refine ⟨hh, hmem, hhs, hlb, hmax, p, hp, ?_⟩
    rw [hlb]
    exact hpct
  · intro s hsel
    obtain ⟨r, hfam, hsym⟩ := avgSelect_eq_some hsel
    exact ⟨r, famin_mem pctLe _ r hfam, hsym, fun r2 h2 =>
      (famin_pctLe_spec _ (avgEligible_pairwise cmp holdings) r hfam
        r2 h2).1⟩

/-- C3 amended witness: on the tie scenario the selected row A is eligible
with minimal change_pct among the eligible rows. -/
theorem C3_averaging_selection_witness :
    (⟨"A", 100, -5⟩ : AvgRow) ∈ avgEligible (fun _ => some (95 : ℚ))
      [⟨"B", 100, 1, 0⟩, ⟨"A", 100, 1, 0⟩] ∧
    (⟨"A", 100, -5⟩ : AvgRow).pct ≤ (⟨"B", 100, -5⟩ : AvgRow).pct := by
  have helig : avgEligible (fun _ => some (95 : ℚ))
      [⟨"B", 100, 1, 0⟩, ⟨"A", 100, 1, 0⟩] =
      [⟨"A", 100, -5⟩, ⟨"B", 100, -5⟩] := by
    norm_num [avgEligible, avgTable, avgRowFor, uniqueSymbolsSorted,
      lastBuyRow, pickLater, List.insertionSort, List.orderedInsert,
      List.dedup, List.filterMap_cons, List.filter_cons,
      (show ¬ strle "B" "A" by decide), (show ("B" : String) ≠ "A" by decide),
      (show ("A" : String) ≠ "B" by decide),
      round2_intCast (-5 : ℚ) (-500) (by norm_num)]
  obtain ⟨r, hrmem, hsym, hall⟩ :=
    (C3_averaging_selection (fun _ => some (95 : ℚ))
        [⟨"B", 100, 1, 0⟩, ⟨"A", 100, 1, 0⟩]).2.2 "A"
      (by
        norm_num [avgSelect, avgEligible, avgTable, avgRowFor,
          uniqueSymbolsSorted, lastBuyRow, pickLater, List.insertionSort,
          List.orderedInsert, List.dedup, List.filterMap_cons,
          List.filter_cons, pctLe,
          (show ¬ strle "B" "A" by decide),
          (show ("B" : String) ≠ "A" by decide),
          (show ("A" : String) ≠ "B" by decide),
          round2_intCast (-5 : ℚ) (-500) (by norm_num)])
  rw [helig] at hrmem
  have hr : r = ⟨"A", 100, -5⟩ := by
    rcases List.mem_cons.mp hrmem with h | h
    · exact h
    · rw [List.mem_singleton.mp h] at hsym
      exact absurd hsym (by decide)
  have h2 := hall ⟨"B", 100, -5⟩
    (by rw [helig]; exact List.mem_cons_of_mem _ (List.mem_singleton.mpr rfl))
  rw [hr] at h2
  exact ⟨by rw [helig]; exact List.mem_cons_self _ _, h2⟩

/-- C9 counterexample: an invalid configuration (daily trade limit 0) makes
`_validate_config` return false, upon which `interactive_setup` returns the
existing settings and the run proceeds — there is no `InvalidConfiguration`
failure, and the invalid values are silently replaced by other settings. -/
theorem C9_counterexample :
    validate_config ⟨0, 5, -3⟩ true true true = false ∧
    interactive_setup default_config ⟨0, 5, -3⟩ true true true true =
      default_config := by
  exact ⟨rfl, rfl⟩

/-- C9 (amended): when the interactively entered parameters violate the
invariants, `interactive_setup` rejects them and returns the previously
stored configuration — the invalid values are never used, but the run does
not fail: no error is raised and the caller proceeds with the returned
settings.  `load_config` performs no validation at all: stored values are
returned as-is. -/
theorem C9_invalid_config_keeps_existing (cur entered : Config)
    (okL okP okLo confirm : Bool)
    (hv : validate_config entered okL okP okLo = false) :
    interactive_setup cur entered okL okP okLo confirm = cur ∧
    ∀ c, load_config (some c) = c := by
  refine ⟨?_, fun _ => rfl⟩
  unfold interactive_setup
  rw [if_neg (by simp [hv])]

/-- C9 amended witness: an entered configuration with daily trade limit 0
is rejected and the defaults are kept. -/
theorem C9_invalid_config_keeps_existing_witness :
    interactive_setup default_config ⟨0, 10, -5⟩ true true true true =
      default_config ∧
    load_config (some ⟨2, 7, -4⟩) = (⟨2, 7, -4⟩ : Config) := by
  have h := C9_invalid_config_keeps_existing default_config ⟨0, 10, -5⟩
    true true true true rfl
  exact ⟨h.1, h.2 ⟨2, 7, -4⟩⟩

end NiftyShop
